import Mathlib

/-! # Verification of the incremental recommendation engine

Shallow embedding of the core of the `SWELL-HYU/BE` backend:
`NightModelTrainer` (`backend/app/services/training_service.py`) and
`WarmRecommendationService` (`backend/app/services/warm_recommendation_service.py`).

Machine floats of the scoring model are modelled as rationals; the neural
scoring function itself (out of scope, opaque per the spec) is a parameter.
-/

set_option maxRecDepth 8000

namespace BE


/-- Association-list lookup with decidable-equality keys, mirroring a Python
dict read `m[k]` / `k in m`: the first entry whose key matches wins. -/
def alGet {α β : Type} [DecidableEq α] (k : α) : List (α × β) → Option β
  | [] => none
  | (k', v) :: rest => if k' = k then some v else alGet k rest

/-! ## IdentityIndex (`NightModelTrainer.train`, lines 56–99)

The trainer keeps `user_id_to_index` / `item_id_to_index` dicts plus a
running `current_max_*_idx` initialised to `num_* - 1` (a Python int, so
`-1` on an empty mapping).  For each interaction:
`if id not in map: current_max += 1; map[id] = current_max`. -/

/-- State of one identity mapping during a training pass: the dict
(stable id ↦ dense index) and the running `current_max` (an integer,
`-1` before any assignment). -/
structure IdState where
  entries : List (ℕ × ℤ)
  curMax : ℤ
  deriving DecidableEq, Repr

/-- One resolution step of `train`'s mapping loop: return the existing index
if the stable id is known (no side effect), otherwise assign
`current_max + 1` and record it. -/
def resolveOrAssign (st : IdState) (sid : ℕ) : IdState × ℤ :=
  match alGet sid st.entries with
  | some idx => (st, idx)
  | none =>
      (⟨st.entries ++ [(sid, st.curMax + 1)], st.curMax + 1⟩, st.curMax + 1)

/-- Processing a batch of stable ids, as `train` does interaction by
interaction, threading the mapping state. -/
def processBatch (st : IdState) : List ℕ → IdState
  | [] => st
  | sid :: rest => processBatch (resolveOrAssign st sid).1 rest

/-- The initial state of a pass: the persisted mapping (or empty) with
`current_max = num - 1` where `num` is the persisted entry count. -/
def initialIdState (persisted : List (ℕ × ℤ)) : IdState :=
  ⟨persisted, (persisted.length : ℤ) - 1⟩

/-! ## Chunked consumption marking (`NightModelTrainer._mark_as_trained`,
lines 234–265)

The method splits the `(user_id, coordi_id)` key list into chunks of
`chunk_size = 1000`, issues one bulk `UPDATE` per chunk, and then calls
`self.db.commit()` once, after the loop. -/

/-- A database operation issued by `_mark_as_trained`: a bulk `UPDATE`
marking one chunk of interaction keys, or a transaction `commit`. -/
inductive DbOp where
  | update (chunk : List (ℕ × ℕ))
  | commit
  deriving DecidableEq, Repr

/-- Fuel-bounded worker for `chunksOf`; the fuel starts at the list length,
which suffices because each step removes at least one element when the
chunk size is positive. -/
def chunksOfAux {α : Type} (k : ℕ) : ℕ → List α → List (List α)
  | 0, _ => []
  | _ + 1, [] => []
  | fuel + 1, a :: rest => (a :: rest).take k :: chunksOfAux k fuel ((a :: rest).drop k)

/-- The chunking of `chunksOf k l`: `[l[0:k], l[k:2k], …]` produced by
`range(0, len(l), k)` with slices `l[i:i+k]` (for positive `k`). -/
def chunksOf {α : Type} (k : ℕ) (l : List α) : List (List α) :=
  if k = 0 then [] else chunksOfAux k l.length l

/-- The chunk size hard-coded in `_mark_as_trained`. -/
def markChunkSize : ℕ := 1000

/-- The exact sequence of database operations `_mark_as_trained` issues:
nothing on an empty key list, otherwise one `UPDATE` per chunk followed by
a single `commit` after the loop. -/
def markTrace (ids : List (ℕ × ℕ)) : List DbOp :=
  if ids = [] then []
  else (chunksOf markChunkSize ids).map DbOp.update ++ [DbOp.commit]

/-- Transaction semantics of one operation on a `(committed, pending)`
pair of key lists: an `UPDATE` adds its chunk to the pending set, a
`commit` makes the pending set durable. -/
def traceStep (s : List (ℕ × ℕ) × List (ℕ × ℕ)) : DbOp →
    List (ℕ × ℕ) × List (ℕ × ℕ)
  | DbOp.update c => (s.1, s.2 ++ c)
  | DbOp.commit => (s.1 ++ s.2, [])

/-- Run a trace from an empty database transaction state. -/
def runTrace (ops : List DbOp) : List (ℕ × ℕ) × List (ℕ × ℕ) :=
  ops.foldl traceStep ([], [])

/-- The durably marked keys when execution is interrupted after the first
`t` operations of a trace: only committed work survives. -/
def durableAfter (ops : List DbOp) (t : ℕ) : List (ℕ × ℕ) :=
  (runTrace (ops.take t)).1

/-- Number of `commit` operations in a trace. -/
def commitCount (ops : List DbOp) : ℕ :=
  (ops.filter (fun op => decide (op = DbOp.commit))).length

/-- A concrete key list spanning two chunks of `_mark_as_trained`. -/
def c1ids : List (ℕ × ℕ) := (List.range 1001).map (fun i => (i, i))

/-! ## Resize-and-transplant (`NightModelTrainer._load_and_resize_model`,
lines 186–232)

The method walks the checkpoint's `state_dict`, and for each parameter
present in the freshly initialised model: an `embedding` parameter with a
changed shape has its first `min(n_old, n_new)` rows copied from the
checkpoint (the remaining rows keep the fresh initialisation); an
`embedding` parameter with an unchanged shape is copied wholesale; any
other parameter is copied when its shape is unchanged and skipped (kept
fresh) on a mismatch.  Floats are modelled as rationals. -/

/-- A parameter tensor: a list of rows of rationals. -/
abbrev Tensor : Type := List (List ℚ)

/-- The shape `(rows, row width)` of a (rectangular) tensor, as compared by
`old_tensor.shape != new_tensor.shape`. -/
def tshape (t : Tensor) : ℕ × ℕ := (t.length, (t.headD []).length)

/-- A model `state_dict`: parameter name ↦ tensor. -/
abbrev StateDict : Type := List (String × Tensor)

/-- Boolean prefix test on character lists. -/
def charsPrefix : List Char → List Char → Bool
  | [], _ => true
  | _ :: _, [] => false
  | a :: ps, b :: ss => a == b && charsPrefix ps ss

/-- Boolean substring test on character lists. -/
def charsHasSub (pat : List Char) : List Char → Bool
  | [] => charsPrefix pat []
  | b :: ss => charsPrefix pat (b :: ss) || charsHasSub pat ss

/-- The `'embedding' in name` test of `_load_and_resize_model`. -/
def nameHasEmbedding (n : String) : Bool :=
  charsHasSub "embedding".data n.data

/-- Overwrite the value stored under an existing key of a state dict,
mirroring `model_state_dict[name] = tensor`. -/
def dictSet (d : StateDict) (k : String) (v : Tensor) : StateDict :=
  d.map (fun p => (p.1, if p.1 = k then v else p.2))

/-- Row transplant `new_tensor[:n_copy, :] = old_tensor[:n_copy, :]` with
`n_copy = min(n_old, n_new)`: the first `n_copy` rows come verbatim from
the checkpoint, the rest keep the fresh initialisation. -/
def transplantRow (oldT newT : Tensor) : Tensor :=
  oldT.take (min oldT.length newT.length) ++
    newT.drop (min oldT.length newT.length)

/-- One iteration of the `for name, param in old_state_dict.items()` loop:
skip names absent from the new model, transplant grown `embedding` tables,
copy shape-stable parameters, keep mismatched non-embedding parameters
fresh. -/
def transplantEntry (fresh : StateDict) (e : String × Tensor) : StateDict :=
  match alGet e.1 fresh with
  | none => fresh
  | some newT =>
      if nameHasEmbedding e.1 then
        if tshape e.2 = tshape newT then dictSet fresh e.1 e.2
        else dictSet fresh e.1 (transplantRow e.2 newT)
      else
        if tshape e.2 = tshape newT then dictSet fresh e.1 e.2 else fresh

/-- Model of `_load_and_resize_model`: fold the checkpoint's `state_dict` into the
freshly initialised one.  A total function: a shape mismatch never
raises. -/
def loadAndResize (old fresh : StateDict) : StateDict :=
  old.foldl transplantEntry fresh

/-- What `_load_and_resize_model` leaves under a checkpoint parameter name,
as a function of the fresh model's tensor under the same name. -/
def resolveResult (name : String) (t : Tensor) : Option Tensor → Option Tensor
  | none => none
  | some newT =>
      if nameHasEmbedding name then
        if tshape t = tshape newT then some t
        else some (transplantRow t newT)
      else if tshape t = tshape newT then some t else some newT

/-- A 3-row user embedding checkpoint `state_dict` with one dense layer. -/
def exOldDict : StateDict :=
  [("user_embedding.weight", [[1], [2], [3]]),
   ("fc_layers.0.weight", [[9, 9], [8, 8]])]

/-- The fresh 5-row model `state_dict` for the grown vocabulary. -/
def exFreshDict : StateDict :=
  [("user_embedding.weight", [[0], [0], [0], [0], [0]]),
   ("fc_layers.0.weight", [[0, 0], [0, 0]])]

/-! ## Warm inference (`WarmRecommendationService.recommend`, lines 82–194)

The service holds the loaded checkpoint state (identity mappings and the
embedding tables; the rest of the network is fixed and absorbed into an
opaque scoring parameter `scoreFn`).  `recommend`:
looks up the user's dense index (absent → `([], 0)`); injects the
published `day_v1` user embedding, when present, by writing the user's row
of the shared `user_embedding.weight` in place; scores every item; forces
the score of every previously interacted item index to `-inf` (modelled
as `⊥ : WithBot ℚ`); ranks by `np.argsort(scores)[::-1]` (argsort is
modelled as a stable ascending sort, which is `numpy`'s behaviour on small
arrays, then reversed); counts the non-`-inf` scores; and pages through
the ranking, skipping `-inf` entries and translating dense indices to
stable ids. -/

/-- An embedding vector. -/
abbrev Vec : Type := List ℚ

/-- The state `WarmRecommendationService` keeps from the loaded
checkpoint. -/
structure WarmState where
  userIdToIndex : List (ℕ × ℕ)
  itemIdToIndex : List (ℕ × ℕ)
  userEmb : List Vec
  itemEmb : List Vec
  deriving DecidableEq, Repr

/-- The inverse mapping `index_to_item_id = {v: k for k, v in items}`,
read with `.get(idx)`. -/
def indexToItemId (m : List (ℕ × ℕ)) (idx : ℕ) : Option ℕ :=
  (m.find? (fun p => decide (p.2 = idx))).map Prod.fst

/-- Dense indices of the user's previously interacted items that appear in
the item mapping (lines 154–158). -/
def seenIndices (m : List (ℕ × ℕ)) (seen : List ℕ) : List ℕ :=
  seen.filterMap (fun cid => alGet cid m)

/-- Raw model scores for one user row against the full catalog
(lines 136–142), through the opaque scoring function. -/
def rawOf (scoreFn : Vec → Vec → ℚ) (st : WarmState) (uidx : ℕ) : List ℚ :=
  st.itemEmb.map (scoreFn (st.userEmb.getD uidx []))

/-- The masked score of item index `i`: `-inf` (`⊥`) when seen, the raw
score otherwise (lines 160–162). -/
def maskedOf (raw : List ℚ) (seenIdx : List ℕ) (i : ℕ) : WithBot ℚ :=
  if i ∈ seenIdx then ⊥ else ((raw.getD i 0 : ℚ) : WithBot ℚ)

/-- Insert index `i` into an ascending-sorted index list, after every
index of score ≤ its own: the insertion step of a stable ascending
argsort. -/
def insAsc (s : ℕ → WithBot ℚ) (i : ℕ) : List ℕ → List ℕ
  | [] => [i]
  | j :: rest => if s i < s j then i :: j :: rest else j :: insAsc s i rest

/-- Model of `np.argsort(scores)`: the indices `0, …, n-1` sorted ascending by
score, stably (equal scores keep ascending index order). -/
def argsortAsc (s : ℕ → WithBot ℚ) (n : ℕ) : List ℕ :=
  (List.range n).foldl (fun acc i => insAsc s i acc) []

/-- The reversal `np.argsort(scores)[::-1]` (line 166): the descending ranking. -/
def rankedDesc (s : ℕ → WithBot ℚ) (n : ℕ) : List ℕ :=
  (argsortAsc s n).reverse

/-- The count `valid_count` (line 174): the number of item indices whose score was
not forced to `-inf`. -/
def totalOf (s : ℕ → WithBot ℚ) (n : ℕ) : ℕ :=
  ((List.range n).filter (fun i => decide (s i ≠ ⊥))).length

/-- The ranking restricted to its eligible (non-`-inf`) indices. -/
def eligibleRanked (s : ℕ → WithBot ℚ) (n : ℕ) : List ℕ :=
  (rankedDesc s n).filter (fun i => decide (s i ≠ ⊥))

/-- The state after the per-request embedding injection (line 129): the
published vector, when present, overwrites the user's row of the shared
`user_embedding.weight` in place. -/
def injectState (st : WarmState) (uidx : ℕ) : Option Vec → WarmState
  | some v => { st with userEmb := st.userEmb.set uidx v }
  | none => st

/-- Steps 3–7 of `recommend` once the user's dense index is known and the
injection has been applied: score, mask seen items, rank, count the
eligible indices, and page. -/
def recommendKnown (scoreFn : Vec → Vec → ℚ) (st' : WarmState) (uidx : ℕ)
    (seen : List ℕ) (page limit : ℕ) : List ℕ × ℕ :=
  let n := st'.itemEmb.length
  let masked := maskedOf (rawOf scoreFn st' uidx)
    (seenIndices st'.itemIdToIndex seen)
  let total := totalOf masked n
  let offset := (page - 1) * limit
  if total ≤ offset then ([], total)
  else
    let top := ((rankedDesc masked n).drop offset).take limit
    (top.filterMap (fun i =>
      if masked i = ⊥ then none else indexToItemId st'.itemIdToIndex i), total)

/-- Model of `WarmRecommendationService.recommend`, returning the response together
with the (possibly mutated) shared model state.  `published` is the
`day_v1` embedding fetched for the user, `seen` the user's interacted
item ids of any action type. -/
def recommend (scoreFn : Vec → Vec → ℚ) (st : WarmState)
    (published : Option Vec) (seen : List ℕ)
    (userId : ℕ) (page limit : ℕ) : (List ℕ × ℕ) × WarmState :=
  match alGet userId st.userIdToIndex with
  | none => (([], 0), st)
  | some uidx =>
      let st' := injectState st uidx published
      (recommendKnown scoreFn st' uidx seen page limit, st')

/-- The ascending order realised by `np.argsort` modelled stably: index
`i` precedes `j` when its score is smaller, or on equal scores when
`i < j`. -/
def ascR (s : ℕ → WithBot ℚ) (i j : ℕ) : Prop :=
  s i < s j ∨ (s i = s j ∧ i < j)

/-- The order of the reversed ranking actually served: descending score,
and on equal scores the larger dense index first. -/
def descR (s : ℕ → WithBot ℚ) (i j : ℕ) : Prop :=
  s j < s i ∨ (s j = s i ∧ j < i)

/-- An arithmetic-free scoring function for concrete instances: the item
row's first coordinate. -/
def scoreOne : Vec → Vec → ℚ := fun _ r => r.getD 0 0

/-- A scoring function whose ranking depends on the user's row: items
score by their first coordinate when the user's first coordinate is at
least `1`, and by its negation otherwise. -/
def scoreFlip : Vec → Vec → ℚ := fun u r =>
  if (1 : ℚ) ≤ u.getD 0 0 then r.getD 0 0 else -(r.getD 0 0)

/-- One user (id 7, row `[1]`) and two items (10 ↦ 0 scoring 1,
11 ↦ 1 scoring 2) with distinct scores under `scoreFlip`. -/
def stFlip : WarmState :=
  ⟨[(7, 0)], [(10, 0), (11, 1)], [[1]], [[1], [2]]⟩

/-- Two items with equal scores under `scoreOne`. -/
def stTie : WarmState :=
  ⟨[(7, 0)], [(10, 0), (11, 1)], [[1]], [[1], [1]]⟩

/-! ## The training pass (`NightModelTrainer.train`, lines 24–184)

The pass queries the interactions with a positive action type
(`like`/`preference`) and `is_trained = False`; an empty result is an
explicit early return before any write.  Otherwise it grows the identity
mappings, builds the resized model, runs the BPR epochs (floats and the
optimizer are opaque parameters `initModel`/`gradStep`, the per-epoch
`np.random.shuffle` an opaque parameter `shuffle`), marks the consumed
keys through `_mark_as_trained`, upserts the embedding tables into the
store, and overwrites the checkpoint. -/

/-- A `user_coordi_interactions` row as the trainer reads it. -/
structure Interaction where
  userId : ℕ
  coordiId : ℕ
  actionType : String
  isTrained : Bool
  deriving DecidableEq, Repr

/-- The training-input filter (lines 45–48): positive action type and not
yet consumed. -/
def isPositiveUntrained (r : Interaction) : Bool :=
  (decide (r.actionType = "like") || decide (r.actionType = "preference"))
    && !r.isTrained

/-- The new interactions a pass trains on. -/
def unconsumedPositives (ints : List Interaction) : List Interaction :=
  ints.filter isPositiveUntrained

/-- One epoch's batching (lines 124–135): `len // batch_size` batches of
`data[i*bs : min((i+1)*bs, len)]`, forced to one batch when the integer
division gives zero so at least one gradient step runs. -/
def makeBatches {α : Type} (data : List α) (bs : ℕ) : List (List α) :=
  let nb := if data.length / bs = 0 then 1 else data.length / bs
  (List.range nb).filterMap (fun i =>
    if i * bs < min ((i + 1) * bs) data.length then
      some ((data.drop (i * bs)).take (min ((i + 1) * bs) data.length - i * bs))
    else none)

/-- Result of the mapping-growth loop over the new interactions
(lines 76–95): final user/item mapping states, the `(u_idx, i_idx)`
training pairs, and the `(user_id, coordi_id)` keys to mark. -/
structure GrowResult where
  ust : IdState
  ist : IdState
  trainData : List (ℤ × ℤ)
  markKeys : List (ℕ × ℕ)
  deriving DecidableEq, Repr

/-- The mapping-growth loop of `train`. -/
def processInteractions : IdState → IdState → List Interaction → GrowResult
  | u, i, [] => ⟨u, i, [], []⟩
  | u, i, r :: rest =>
      let ru := resolveOrAssign u r.userId
      let ri := resolveOrAssign i r.coordiId
      let g := processInteractions ru.1 ri.1 rest
      ⟨g.ust, g.ist, (ru.2, ri.2) :: g.trainData,
        (r.userId, r.coordiId) :: g.markKeys⟩

/-- The net database effect of the committed `UPDATE`s: every interaction
whose `(user_id, coordi_id)` key is in the marked set gets
`is_trained = True`. -/
def applyMark (ids : List (ℕ × ℕ)) (ints : List Interaction) :
    List Interaction :=
  ints.map (fun r =>
    if (r.userId, r.coordiId) ∈ ids then { r with isTrained := true } else r)

/-- The checkpoint dictionary written by `save_checkpoint`
(lines 308–316). -/
structure Checkpoint where
  modelStateDict : StateDict
  userIdToIndex : List (ℕ × ℤ)
  itemIdToIndex : List (ℕ × ℤ)
  numUsers : ℕ
  numItems : ℕ
  embeddingDim : ℕ
  hiddenDims : List ℕ
  deriving DecidableEq, Repr

/-- Everything a training pass reads or writes: the interaction rows, the
single checkpoint slot, and the two published-embedding stores keyed by
`(entity_id, model_version)`. -/
structure TrainWorld where
  interactions : List Interaction
  checkpoint : Option Checkpoint
  userEmbStore : List ((ℕ × String) × Vec)
  itemEmbStore : List ((ℕ × String) × Vec)
  deriving DecidableEq, Repr

/-- The user mapping state at the start of a pass: the checkpoint's
mapping with `current_max = num_users - 1`, or empty with `-1`. -/
def initialUserState (w : TrainWorld) : IdState :=
  match w.checkpoint with
  | some cp => ⟨cp.userIdToIndex, (cp.numUsers : ℤ) - 1⟩
  | none => ⟨[], -1⟩

/-- The item mapping state at the start of a pass. -/
def initialItemState (w : TrainWorld) : IdState :=
  match w.checkpoint with
  | some cp => ⟨cp.itemIdToIndex, (cp.numItems : ℤ) - 1⟩
  | none => ⟨[], -1⟩

/-- The `(u_idx, i_idx)` training pairs a pass derives from its new
interactions. -/
def trainDataOf (w : TrainWorld) : List (ℤ × ℤ) :=
  (processInteractions (initialUserState w) (initialItemState w)
    (unconsumedPositives w.interactions)).trainData

/-- The epoch loop (lines 120–169): per epoch, shuffle the pairs and fold
one opaque gradient step over each batch. -/
def runEpochs (gradStep : StateDict → List (ℤ × ℤ) → StateDict)
    (shuffle : ℕ → List (ℤ × ℤ) → List (ℤ × ℤ)) (epochs bs : ℕ)
    (sd : StateDict) (data : List (ℤ × ℤ)) : StateDict :=
  (List.range epochs).foldl (fun m e =>
    (makeBatches (shuffle e data) bs).foldl gradStep m) sd

/-- The table `model.user_embedding.weight` of a state dict. -/
def userTable (sd : StateDict) : Tensor :=
  (alGet "user_embedding.weight" sd).getD []

/-- The table `model.item_embedding.weight` of a state dict. -/
def itemTable (sd : StateDict) : Tensor :=
  (alGet "item_embedding.weight" sd).getD []

/-- Model of `_upsert_user` / `_upsert_item`: update the row when the
`(entity_id, version)` key exists, insert it otherwise. -/
def upsert (store : List ((ℕ × String) × Vec)) (key : ℕ × String) (v : Vec) :
    List ((ℕ × String) × Vec) :=
  match alGet key store with
  | some _ => store.map (fun p => (p.1, if p.1 = key then v else p.2))
  | none => store ++ [(key, v)]

/-- Model of `save_embeddings`, user half (lines 276–280): each user's trained row
is published under both the `night_v1` and `day_v1` labels. -/
def saveUserEmbeddings (sd : StateDict) (entries : List (ℕ × ℤ))
    (store : List ((ℕ × String) × Vec)) : List ((ℕ × String) × Vec) :=
  entries.foldl (fun acc e =>
    upsert (upsert acc (e.1, "night_v1") ((userTable sd).getD e.2.toNat []))
      (e.1, "day_v1") ((userTable sd).getD e.2.toNat [])) store

/-- Model of `save_embeddings`, item half (lines 282–285). -/
def saveItemEmbeddings (sd : StateDict) (entries : List (ℕ × ℤ))
    (store : List ((ℕ × String) × Vec)) : List ((ℕ × String) × Vec) :=
  entries.foldl (fun acc e =>
    upsert acc (e.1, "night_v1") ((itemTable sd).getD e.2.toNat [])) store

/-- Model of `NightModelTrainer.train`: the full pass.  `initModel` is the fresh
`NeMF` initialisation, `gradStep` one optimizer step and `shuffle` the
per-epoch permutation — the floating-point, out-of-scope pieces. -/
def trainPass (initModel : ℕ → ℕ → StateDict)
    (gradStep : StateDict → List (ℤ × ℤ) → StateDict)
    (shuffle : ℕ → List (ℤ × ℤ) → List (ℤ × ℤ))
    (epochs bs embDim : ℕ) (w : TrainWorld) : TrainWorld :=
  let news := unconsumedPositives w.interactions
  if news = [] then w
  else
    let g := processInteractions (initialUserState w) (initialItemState w)
      news
    let model0 := initModel (g.ust.curMax + 1).toNat (g.ist.curMax + 1).toNat
    let model1 := match w.checkpoint with
      | some cp => loadAndResize cp.modelStateDict model0
      | none => model0
    let model2 := runEpochs gradStep shuffle epochs bs model1 g.trainData
    let committed := (runTrace (markTrace g.markKeys)).1
    { interactions := applyMark committed w.interactions
      checkpoint := some ⟨model2, g.ust.entries, g.ist.entries,
        g.ust.entries.length, g.ist.entries.length, embDim, [128]⟩
      userEmbStore := saveUserEmbeddings model2 g.ust.entries w.userEmbStore
      itemEmbStore := saveItemEmbeddings model2 g.ist.entries w.itemEmbStore }

/-- A world with interactions but no unconsumed positive one: a `skip`
row and an already consumed `like` row. -/
def wNoop : TrainWorld :=
  ⟨[⟨1, 2, "skip", false⟩, ⟨1, 3, "like", true⟩], none, [], []⟩

/-- Degenerate opaque parameters for concrete instances. -/
def noModel : ℕ → ℕ → StateDict := fun _ _ => []

/-- A gradient step that keeps the weights (opaque parameter instance). -/
def noGrad : StateDict → List (ℤ × ℤ) → StateDict := fun m _ => m

/-- The identity shuffle (opaque parameter instance). -/
def noShuffle : ℕ → List (ℤ × ℤ) → List (ℤ × ℤ) := fun _ l => l

/-- A world with a single unconsumed positive interaction. -/
def wOne : TrainWorld := ⟨[⟨1, 2, "like", false⟩], none, [], []⟩

theorem alGet_append_of_isSome {α β : Type} [DecidableEq α] (k : α)
    (m m' : List (α × β)) (h : (alGet k m).isSome) :
    alGet k (m ++ m') = alGet k m := by
  induction m with
  | nil => simp [alGet] at h
  | cons p rest ih =>
    obtain ⟨k', v⟩ := p
    by_cases hk : k' = k
    · subst hk
      simp [alGet]
    · simp only [alGet, hk, if_false, List.cons_append] at h ⊢
      exact ih h

theorem processBatch_preserves {st : IdState} {sid : ℕ} {idx : ℤ}
    (batch : List ℕ) (h : alGet sid st.entries = some idx) :
    alGet sid (processBatch st batch).entries = some idx := by
  induction batch generalizing st with
  | nil => exact h
  | cons b rest ih =>
    simp only [processBatch]
    apply ih
    unfold resolveOrAssign
    cases hb : alGet b st.entries with
    | some i => exact h
    | none =>
      simp only
      rw [alGet_append_of_isSome]
      · exact h
      · rw [h]; rfl

theorem chunksOfAux_flatten {α : Type} (k : ℕ) (hk : 0 < k) :
    ∀ (fuel : ℕ) (l : List α), l.length ≤ fuel →
      (chunksOfAux k fuel l).flatten = l := by
  intro fuel
  induction fuel with
  | zero =>
    intro l hl
    have : l = [] := List.eq_nil_of_length_eq_zero (Nat.le_zero.mp hl)
    subst this
    rfl
  | succ n ih =>
    intro l hl
    match l with
    | [] => rfl
    | a :: rest =>
      have hlen : ((a :: rest).drop k).length ≤ n := by
        simp only [List.length_drop, List.length_cons]
        simp only [List.length_cons] at hl
        omega
      simp only [chunksOfAux, List.flatten]
      rw [ih _ hlen]
      exact List.take_append_drop k (a :: rest)

/-- Concatenating the chunks gives back the original list. -/
theorem chunksOf_flatten {α : Type} (k : ℕ) (hk : 0 < k) (l : List α) :
    (chunksOf k l).flatten = l := by
  unfold chunksOf
  rw [if_neg (Nat.pos_iff_ne_zero.mp hk)]
  exact chunksOfAux_flatten k hk l.length l le_rfl

theorem foldl_traceStep_updates (s : List (ℕ × ℕ) × List (ℕ × ℕ))
    (cs : List (List (ℕ × ℕ))) :
    (cs.map DbOp.update).foldl traceStep s = (s.1, s.2 ++ cs.flatten) := by
  induction cs generalizing s with
  | nil => simp
  | cons c rest ih =>
    simp only [List.map_cons, List.foldl_cons, ih, traceStep,
      List.flatten_cons, List.append_assoc]

/-- C1 (counterexample): on 1001 interaction keys, `_mark_as_trained`
produces two chunks but only one `commit` (issued after the loop, not per
chunk), and an interruption right after the first chunk's `UPDATE` leaves
nothing durably marked, although chunk 1 is nonempty — refuting "a database
commit issued after each chunk" and "chunks 1..k remain durably marked". -/
theorem c1_per_chunk_commit_counterexample :
    (chunksOf markChunkSize c1ids).length = 2 ∧
    commitCount (markTrace c1ids) = 1 ∧
    durableAfter (markTrace c1ids) 1 = [] ∧
    ((chunksOf markChunkSize c1ids).take 1).flatten ≠ [] := by
  refine ⟨by decide, by decide, by decide, by decide⟩

theorem markTrace_eq (ids : List (ℕ × ℕ)) (h : ids ≠ []) :
    markTrace ids =
      (chunksOf markChunkSize ids).map DbOp.update ++ [DbOp.commit] := by
  unfold markTrace
  rw [if_neg h]

theorem durable_markTrace (ids : List (ℕ × ℕ)) (h : ids ≠ []) (t : ℕ)
    (ht : t ≤ (chunksOf markChunkSize ids).length) :
    durableAfter (markTrace ids) t = [] := by
  unfold durableAfter runTrace
  rw [markTrace_eq ids h]
  rw [List.take_append_of_le_length (by simpa using ht)]
  rw [← List.map_take]
  rw [foldl_traceStep_updates]

theorem runTrace_markTrace (ids : List (ℕ × ℕ)) (h : ids ≠ []) :
    runTrace (markTrace ids) = (ids, []) := by
  unfold runTrace
  rw [markTrace_eq ids h]
  rw [List.foldl_append]
  rw [foldl_traceStep_updates]
  simp only [List.foldl_cons, List.foldl_nil, traceStep, List.nil_append]
  rw [chunksOf_flatten markChunkSize (by decide)]

/-- C1 (amended): `_mark_as_trained` issues one bulk `UPDATE` per fixed-size
chunk but a single `commit` after all chunks; an interruption at any point
before that final commit leaves no interaction durably marked, while an
uninterrupted run durably marks exactly the full key list (all-or-nothing,
not incremental durability). -/
theorem c1_mark_single_commit (ids : List (ℕ × ℕ)) (h : ids ≠ []) :
    markTrace ids =
      (chunksOf markChunkSize ids).map DbOp.update ++ [DbOp.commit] ∧
    (∀ t, t ≤ (chunksOf markChunkSize ids).length →
      durableAfter (markTrace ids) t = []) ∧
    runTrace (markTrace ids) = (ids, []) :=
  ⟨markTrace_eq ids h, durable_markTrace ids h, runTrace_markTrace ids h⟩

/-- C1 (amended, witness): the general theorem applied to the two-chunk
key list. -/
theorem c1_mark_single_commit_witness :
    runTrace (markTrace c1ids) = (c1ids, []) :=
  (c1_mark_single_commit c1ids (by decide)).2.2

/-- C5: resolving a known stable id returns its existing index with no
change to the mapping; a new stable id is assigned `current_max + 1`
(`0` on an empty mapping, where `current_max` starts at `-1`); and
processing any batch of ids preserves every persisted assignment, so a
known id still resolves to its original index after arbitrary
interleaving with new ids. -/
theorem c5_identity_index_growth (persisted : List (ℕ × ℤ)) (batch : List ℕ)
    (sid : ℕ) (idx : ℤ) (st : IdState) :
    (alGet sid st.entries = some idx → resolveOrAssign st sid = (st, idx)) ∧
    (alGet sid st.entries = none →
      (resolveOrAssign st sid).2 = st.curMax + 1) ∧
    (initialIdState []).curMax + 1 = 0 ∧
    (alGet sid persisted = some idx →
      alGet sid (processBatch (initialIdState persisted) batch).entries
          = some idx ∧
      resolveOrAssign (processBatch (initialIdState persisted) batch) sid
          = (processBatch (initialIdState persisted) batch, idx)) := by
  refine ⟨?_, ?_, by decide, ?_⟩
  · intro h
    unfold resolveOrAssign
    rw [h]
  · intro h
    unfold resolveOrAssign
    rw [h]
  · intro h
    have hpres := @processBatch_preserves (initialIdState persisted) sid idx
      batch h
    refine ⟨hpres, ?_⟩
    unfold resolveOrAssign
    rw [hpres]

/-- C5 (witness): with persisted mapping `{5 ↦ 0, 9 ↦ 1}` and new batch
`[7, 5, 3]`, id `9` still resolves to index `1` with no state change. -/
theorem c5_identity_index_growth_witness :
    resolveOrAssign (processBatch (initialIdState [(5, 0), (9, 1)]) [7, 5, 3]) 9
      = (processBatch (initialIdState [(5, 0), (9, 1)]) [7, 5, 3], 1) :=
  ((c5_identity_index_growth [(5, 0), (9, 1)] [7, 5, 3] 9 1
    (initialIdState [(5, 0), (9, 1)])).2.2.2 (by decide)).2

theorem alGet_dictSet_ne {d : StateDict} {a k : String} (v : Tensor)
    (h : a ≠ k) : alGet a (dictSet d k v) = alGet a d := by
  induction d with
  | nil => rfl
  | cons p rest ih =>
    obtain ⟨k', w⟩ := p
    simp only [dictSet, List.map_cons, alGet]
    by_cases hka : k' = a
    · subst hka
      rw [if_pos rfl, if_pos rfl, if_neg h]
    · rw [if_neg hka, if_neg hka]
      exact ih

theorem alGet_dictSet_self {d : StateDict} {k : String} {w : Tensor}
    (v : Tensor) (h : alGet k d = some w) :
    alGet k (dictSet d k v) = some v := by
  induction d with
  | nil => simp [alGet] at h
  | cons p rest ih =>
    obtain ⟨k', u⟩ := p
    simp only [dictSet, List.map_cons, alGet]
    by_cases hk : k' = k
    · rw [if_pos hk, if_pos hk]
    · simp only [alGet, if_neg hk] at h
      rw [if_neg hk]
      exact ih h

theorem alGet_transplantEntry_ne (fresh : StateDict) (e : String × Tensor)
    {a : String} (h : a ≠ e.1) :
    alGet a (transplantEntry fresh e) = alGet a fresh := by
  unfold transplantEntry
  cases hget : alGet e.1 fresh with
  | none => rfl
  | some newT =>
    by_cases hemb : nameHasEmbedding e.1
    · by_cases hsh : tshape e.2 = tshape newT
      · simp only [hemb, if_true, if_pos hsh]
        exact alGet_dictSet_ne _ h
      · simp only [hemb, if_true, if_neg hsh]
        exact alGet_dictSet_ne _ h
    · by_cases hsh : tshape e.2 = tshape newT
      · simp only [hemb, Bool.false_eq_true, if_false, if_pos hsh]
        exact alGet_dictSet_ne _ h
      · simp only [hemb, Bool.false_eq_true, if_false, if_neg hsh]

theorem alGet_foldl_transplant_notMem (old : StateDict) {a : String}
    (fresh : StateDict) (h : a ∉ old.map Prod.fst) :
    alGet a (old.foldl transplantEntry fresh) = alGet a fresh := by
  induction old generalizing fresh with
  | nil => rfl
  | cons e rest ih =>
    simp only [List.map_cons, List.mem_cons, not_or] at h
    simp only [List.foldl_cons]
    rw [ih _ h.2, alGet_transplantEntry_ne fresh e h.1]

theorem alGet_loadAndResize (old : StateDict) {name : String} {t : Tensor}
    (fresh : StateDict) (hnd : (old.map Prod.fst).Nodup)
    (hmem : (name, t) ∈ old) :
    alGet name (loadAndResize old fresh)
      = resolveResult name t (alGet name fresh) := by
  induction old generalizing fresh with
  | nil => exact absurd hmem (List.not_mem_nil _)
  | cons e rest ih =>
    simp only [List.map_cons, List.nodup_cons] at hnd
    simp only [loadAndResize, List.foldl_cons]
    rcases List.mem_cons.mp hmem with heq | hrest
    · subst heq
      have hnot : name ∉ rest.map Prod.fst := hnd.1
      rw [alGet_foldl_transplant_notMem rest _ hnot]
      cases hget : alGet name fresh with
      | none => simp only [transplantEntry, hget, resolveResult]
      | some newT =>
        simp only [transplantEntry, hget, resolveResult]
        by_cases hemb : nameHasEmbedding name
        · by_cases hsh : tshape t = tshape newT
          · simp only [hemb, if_true, if_pos hsh]
            exact alGet_dictSet_self _ hget
          · simp only [hemb, if_true, if_neg hsh]
            exact alGet_dictSet_self _ hget
        · by_cases hsh : tshape t = tshape newT
          · simp only [hemb, Bool.false_eq_true, if_false, if_pos hsh]
            exact alGet_dictSet_self _ hget
          · simp only [hemb, Bool.false_eq_true, if_false, if_neg hsh]
            exact hget
    · have hne : name ≠ e.1 := by
        intro hcontra
        exact hnd.1 (hcontra ▸ List.mem_map_of_mem Prod.fst hrest)
      rw [show (rest.foldl transplantEntry (transplantEntry fresh e))
            = loadAndResize rest (transplantEntry fresh e) from rfl]
      rw [ih _ hnd.2 hrest, alGet_transplantEntry_ne fresh e hne]

/-- C4: resize-and-transplant.  For a checkpoint parameter `name` present
in the fresh model: a grown (shape-changed) embedding table keeps the
checkpoint rows verbatim below the old row count and the fresh rows at the
new indices; a shape-stable parameter (embedding or not) is copied
exactly; a shape-mismatched non-embedding parameter is skipped and stays
fresh — and `loadAndResize` is total, so no case raises. -/
theorem c4_resize_transplant (old fresh : StateDict) (name : String)
    (tOld tFresh : Tensor)
    (hnd : (old.map Prod.fst).Nodup)
    (hmem : (name, tOld) ∈ old)
    (hfresh : alGet name fresh = some tFresh) :
    (nameHasEmbedding name = true → tshape tOld ≠ tshape tFresh →
      ∃ res, alGet name (loadAndResize old fresh) = some res ∧
        res.length = tFresh.length ∧
        (∀ i, i < min tOld.length tFresh.length → res[i]? = tOld[i]?) ∧
        (∀ i, min tOld.length tFresh.length ≤ i → res[i]? = tFresh[i]?)) ∧
    (nameHasEmbedding name = true → tshape tOld = tshape tFresh →
      alGet name (loadAndResize old fresh) = some tOld) ∧
    (nameHasEmbedding name = false → tshape tOld = tshape tFresh →
      alGet name (loadAndResize old fresh) = some tOld) ∧
    (nameHasEmbedding name = false → tshape tOld ≠ tshape tFresh →
      alGet name (loadAndResize old fresh) = some tFresh) := by
  have hmain := alGet_loadAndResize old fresh hnd hmem
  rw [hfresh] at hmain
  refine ⟨?_, ?_, ?_, ?_⟩
  · intro hemb hsh
    refine ⟨transplantRow tOld tFresh, ?_, ?_, ?_, ?_⟩
    · rw [hmain]
      simp only [resolveResult]
      rw [if_pos hemb, if_neg hsh]
    · unfold transplantRow
      rw [List.length_append, List.length_take, List.length_drop]
      omega
    · intro i hi
      unfold transplantRow
      rw [List.getElem?_append, if_pos]
      · rw [List.getElem?_take, if_pos hi]
      · rw [List.length_take]
        omega
    · intro i hi
      unfold transplantRow
      have hlen : (tOld.take (min tOld.length tFresh.length)).length
          = min tOld.length tFresh.length := by
        rw [List.length_take]
        omega
      rw [List.getElem?_append_right (by omega), hlen, List.getElem?_drop]
      congr 1
      omega
  · intro hemb hsh
    rw [hmain]
    simp only [resolveResult]
    rw [if_pos hemb, if_pos hsh]
  · intro hemb hsh
    rw [hmain]
    simp only [resolveResult]
    rw [hemb]
    simp only [Bool.false_eq_true, if_false, if_pos hsh]
  · intro hemb hsh
    rw [hmain]
    simp only [resolveResult]
    rw [hemb]
    simp only [Bool.false_eq_true, if_false, if_neg hsh]

theorem mem_insAsc {s : ℕ → WithBot ℚ} {i x : ℕ} {l : List ℕ} :
    x ∈ insAsc s i l ↔ x = i ∨ x ∈ l := by
  induction l with
  | nil => simp [insAsc]
  | cons j rest ih =>
    unfold insAsc
    by_cases hij : s i < s j
    · simp [if_pos hij]
    · simp only [if_neg hij, List.mem_cons, ih]
      tauto

theorem insAsc_perm (s : ℕ → WithBot ℚ) (i : ℕ) (l : List ℕ) :
    List.Perm (insAsc s i l) (i :: l) := by
  induction l with
  | nil => rfl
  | cons j rest ih =>
    unfold insAsc
    by_cases hij : s i < s j
    · rw [if_pos hij]
    · rw [if_neg hij]
      exact (ih.cons j).trans (List.Perm.swap i j rest)

theorem insAsc_pairwise {s : ℕ → WithBot ℚ} {i : ℕ} {l : List ℕ}
    (hl : l.Pairwise (ascR s)) (hmax : ∀ x ∈ l, x < i) :
    (insAsc s i l).Pairwise (ascR s) := by
  induction l with
  | nil => simp [insAsc, List.Pairwise]
  | cons j rest ih =>
    rw [List.pairwise_cons] at hl
    unfold insAsc
    by_cases hij : s i < s j
    · rw [if_pos hij]
      refine List.Pairwise.cons ?_ (List.Pairwise.cons hl.1 hl.2)
      intro y hy
      rcases List.mem_cons.mp hy with hyj | hyr
      · subst hyj
        exact Or.inl hij
      · have hjy : s j ≤ s y := by
          rcases hl.1 y hyr with h | h
          · exact le_of_lt h
          · exact le_of_eq h.1
        exact Or.inl (lt_of_lt_of_le hij hjy)
    · rw [if_neg hij]
      refine List.Pairwise.cons ?_ (ih hl.2 (fun x hx => hmax x (List.mem_cons_of_mem j hx)))
      intro y hy
      rcases mem_insAsc.mp hy with hyi | hyr
      · subst hyi
        rcases lt_or_eq_of_le (not_lt.mp hij) with h | h
        · exact Or.inl h
        · exact Or.inr ⟨h, hmax j (List.mem_cons_self j rest)⟩
      · exact hl.1 y hyr

theorem argsortAsc_spec (s : ℕ → WithBot ℚ) (n : ℕ) :
    List.Perm (argsortAsc s n) (List.range n) ∧
      (argsortAsc s n).Pairwise (ascR s) := by
  induction n with
  | zero => exact ⟨List.Perm.refl _, List.Pairwise.nil⟩
  | succ n ih =>
    have hstep : argsortAsc s (n + 1) = insAsc s n (argsortAsc s n) := by
      unfold argsortAsc
      rw [List.range_succ, List.foldl_append, List.foldl_cons, List.foldl_nil]
    refine ⟨?_, ?_⟩
    · rw [hstep]
      refine (insAsc_perm s n _).trans ((ih.1.cons n).trans ?_)
      rw [List.range_succ]
      exact (List.perm_append_singleton n _).symm
    · rw [hstep]
      refine insAsc_pairwise ih.2 ?_
      intro x hx
      exact List.mem_range.mp (ih.1.mem_iff.mp hx)

/-- The ranking is a permutation of the catalog's index range and is
sorted descending by score with equal scores in descending index order. -/
theorem rankedDesc_spec (s : ℕ → WithBot ℚ) (n : ℕ) :
    List.Perm (rankedDesc s n) (List.range n) ∧
      (rankedDesc s n).Pairwise (descR s) := by
  obtain ⟨hperm, hsort⟩ := argsortAsc_spec s n
  refine ⟨(List.reverse_perm _).trans hperm, ?_⟩
  unfold rankedDesc
  rw [List.pairwise_reverse]
  exact hsort.imp (fun h => h)

/-- C3 (counterexample): with two equal-scored items at indices 0 and 1,
the ranking is `[1, 0]` — the larger dense index first, because the
ascending argsort is reversed — so `recommend` returns `[11, 10]` where
the claim's smaller-index-first tie-break predicts `[10, 11]`. -/
theorem c3_tie_break_counterexample :
    rankedDesc (fun _ => (0 : WithBot ℚ)) 2 = [1, 0] ∧
    ¬ (rankedDesc (fun _ => (0 : WithBot ℚ)) 2).Pairwise
        (fun i j => (fun _ => (0 : WithBot ℚ)) j < (fun _ => (0 : WithBot ℚ)) i ∨
          ((fun _ => (0 : WithBot ℚ)) i = (fun _ => (0 : WithBot ℚ)) j ∧ i < j)) ∧
    (recommend scoreOne stTie none [] 7 1 20).1.1 = [11, 10] := by
  refine ⟨by decide, by decide, by decide⟩

/-- C3 (amended): the remaining indices are ranked in descending score
order, but equal scores are ranked with the **larger** dense index first
(the reversal of a stable ascending argsort flips the tie order); the
ranking is a permutation of the full index range. -/
theorem c3_rank_desc_ties_larger_first (s : ℕ → WithBot ℚ) (n : ℕ) :
    List.Perm (rankedDesc s n) (List.range n) ∧
      (rankedDesc s n).Pairwise (descR s) :=
  rankedDesc_spec s n

/-- C2 (counterexample): injecting the published vector `[0]` for user 7
mutates the shared state permanently: after the request the user's
embedding row is `[0]`, not the checkpoint row `[1]`, and a later
`recommend` with no published embedding ranks `[10, 11]` (scoring against
the injected row) where scoring against the checkpoint's internal row
gives `[11, 10]`. -/
theorem c2_transient_override_counterexample :
    ((recommend scoreFlip stFlip (some [0]) [] 7 1 20).2).userEmb = [[0]] ∧
    stFlip.userEmb = [[1]] ∧
    (recommend scoreFlip stFlip (some [0]) [] 7 1 20).2 ≠ stFlip ∧
    (recommend scoreFlip ((recommend scoreFlip stFlip (some [0]) [] 7 1 20).2)
        none [] 7 1 20).1.1 = [10, 11] ∧
    (recommend scoreFlip stFlip none [] 7 1 20).1.1 = [11, 10] := by
  refine ⟨by decide, by decide, by decide, by decide, by decide⟩

/-- C2 (amended): the per-request override is persistent, not transient:
a `recommend` call with a published embedding leaves the shared state
equal to the old state with that user's embedding row overwritten by the
published vector, and a call with no published embedding performs no
state restoration at all (it scores against whatever row the shared
state currently holds, which after an earlier injection is the injected
vector, not the checkpoint's internal row). -/
theorem c2_injection_persists (scoreFn : Vec → Vec → ℚ) (st : WarmState)
    (seen : List ℕ) (userId page limit uidx : ℕ) (v : Vec)
    (huser : alGet userId st.userIdToIndex = some uidx) :
    (recommend scoreFn st (some v) seen userId page limit).2
        = { st with userEmb := st.userEmb.set uidx v } ∧
    (recommend scoreFn st none seen userId page limit).2 = st := by
  constructor
  · simp only [recommend, huser, injectState]
  · simp only [recommend, huser, injectState]

/-- C2 (amended, witness): the persistence theorem at the concrete
flip-scoring instance. -/
theorem c2_injection_persists_witness :
    (recommend scoreFlip stFlip (some [0]) [] 7 1 20).2
        = { stFlip with userEmb := stFlip.userEmb.set 0 [0] } ∧
    (recommend scoreFlip stFlip none [] 7 1 20).2 = stFlip :=
  c2_injection_persists scoreFlip stFlip [] 7 1 20 0 [0] (by decide)

/-- C4 (witness): growing a 3-row user table to 5 rows keeps checkpoint
rows 0–2 verbatim and fresh rows at indices 3–4. -/
theorem c4_resize_transplant_witness :
    ∃ res, alGet "user_embedding.weight" (loadAndResize exOldDict exFreshDict)
        = some res ∧
      res.length = ([[0], [0], [0], [0], [0]] : Tensor).length ∧
      (∀ i, i < min ([[1], [2], [3]] : Tensor).length
          ([[0], [0], [0], [0], [0]] : Tensor).length →
        res[i]? = ([[1], [2], [3]] : Tensor)[i]?) ∧
      (∀ i, min ([[1], [2], [3]] : Tensor).length
          ([[0], [0], [0], [0], [0]] : Tensor).length ≤ i →
        res[i]? = ([[0], [0], [0], [0], [0]] : Tensor)[i]?) :=
  (c4_resize_transplant exOldDict exFreshDict "user_embedding.weight"
    [[1], [2], [3]] [[0], [0], [0], [0], [0]]
    (by decide) (by decide) (by decide)).1 (by decide) (by decide)

theorem alGet_eq_of_mem_nodup {α β : Type} [DecidableEq α] {m : List (α × β)}
    {a : α} {b : β} (hnd : (m.map Prod.fst).Nodup) (hmem : (a, b) ∈ m) :
    alGet a m = some b := by
  induction m with
  | nil => cases hmem
  | cons p rest ih =>
    obtain ⟨k, v⟩ := p
    simp only [List.map_cons, List.nodup_cons] at hnd
    rcases List.mem_cons.mp hmem with heq | hrest
    · injection heq with h1 h2
      subst h1
      subst h2
      simp [alGet]
    · have hak : k ≠ a := by
        intro hka
        subst hka
        exact hnd.1 (List.mem_map_of_mem Prod.fst hrest)
      simp only [alGet, if_neg hak]
      exact ih hnd.2 hrest

/-- A pairwise-sorted list in which no element failing `p` may precede one
satisfying `p` splits as its `p`-part followed by its non-`p` part. -/
theorem pairwise_split_filter {α : Type} (p : α → Bool) (R : α → α → Prop)
    (l : List α) (hl : l.Pairwise R)
    (hpq : ∀ x y, p x = true → p y = false → ¬ R y x) :
    l = l.filter p ++ l.filter (fun a => ! p a) := by
  induction l with
  | nil => rfl
  | cons a t ih =>
    rw [List.pairwise_cons] at hl
    by_cases hpa : p a = true
    · rw [List.filter_cons_of_pos hpa, List.filter_cons_of_neg (by simp [hpa]),
        List.cons_append]
      rw [← ih hl.2]
    · have hpa' : p a = false := by
        revert hpa
        cases p a <;> simp
      have hall : ∀ x ∈ t, p x = false := by
        intro x hx
        by_cases hpx : p x = true
        · exact absurd (hl.1 x hx) (hpq x a hpx hpa')
        · revert hpx
          cases p x <;> simp
      rw [List.filter_cons_of_neg (by simp [hpa']),
        List.filter_cons_of_pos (by simp [hpa'])]
      rw [List.filter_eq_nil_iff.mpr (by intro x hx; simp [hall x hx]),
        List.nil_append]
      congr 1
      exact (List.filter_eq_self.mpr (by intro x hx; simp [hall x hx])).symm

theorem rankedDesc_split (s : ℕ → WithBot ℚ) (n : ℕ) :
    rankedDesc s n = eligibleRanked s n ++
      (rankedDesc s n).filter (fun i => ! decide (s i ≠ ⊥)) := by
  refine pairwise_split_filter _ (descR s) _ (rankedDesc_spec s n).2 ?_
  intro x y hx hy hR
  have hx' : s x ≠ ⊥ := of_decide_eq_true hx
  have hy' : s y = ⊥ := by
    have := of_decide_eq_false hy
    by_contra hc
    exact this hc
  rcases hR with h | h
  · rw [hy'] at h
    exact absurd h (not_lt_bot)
  · exact hx' (h.1.symm ▸ hy')

theorem length_eligibleRanked (s : ℕ → WithBot ℚ) (n : ℕ) :
    (eligibleRanked s n).length = totalOf s n := by
  unfold eligibleRanked totalOf
  rw [← List.countP_eq_length_filter, ← List.countP_eq_length_filter]
  exact (rankedDesc_spec s n).1.countP_eq _

theorem filterMap_mask (s : ℕ → WithBot ℚ) (f : ℕ → Option ℕ) (l : List ℕ) :
    l.filterMap (fun i => if s i = ⊥ then none else f i)
      = (l.filter (fun i => decide (s i ≠ ⊥))).filterMap f := by
  induction l with
  | nil => rfl
  | cons a t ih =>
    by_cases ha : s a = ⊥
    · rw [List.filterMap_cons_none (by simp [ha]),
        List.filter_cons_of_neg (by simp [ha]), ih]
    · rw [List.filter_cons_of_pos (by simp [ha]),
        List.filterMap_cons, List.filterMap_cons]
      simp only [if_neg ha, ih]

theorem slice_filter (A B : List ℕ) (p : ℕ → Bool) (off lim : ℕ)
    (hA : ∀ x ∈ A, p x = true) (hB : ∀ x ∈ B, p x = false)
    (hoff : off ≤ A.length) :
    (((A ++ B).drop off).take lim).filter p = (A.drop off).take lim := by
  rw [List.drop_append_of_le_length hoff, List.take_append_eq_append_take,
    List.filter_append]
  rw [List.filter_eq_self.mpr
    (fun x hx => hA x (List.mem_of_mem_drop (List.mem_of_mem_take hx)))]
  rw [List.filter_eq_nil_iff.mpr
    (by intro x hx; simp [hB x (List.mem_of_mem_take hx)])]
  rw [List.append_nil]

/-- The translation `index_to_item_id.get(i) = some id` comes from an entry
`(id, i)` of the forward item mapping. -/
theorem indexToItemId_mem {m : List (ℕ × ℕ)} {i id : ℕ}
    (h : indexToItemId m i = some id) : (id, i) ∈ m := by
  unfold indexToItemId at h
  rcases Option.map_eq_some'.mp h with ⟨q, hfind, hfst⟩
  have hq2' := List.find?_some hfind
  have hq2 : q.2 = i := of_decide_eq_true hq2'
  have hqmem := List.mem_of_find?_eq_some hfind
  have : q = (id, i) := by
    rcases q with ⟨q1, q2⟩
    simp only at hfst hq2
    rw [hfst, hq2]
  rw [← this]
  exact hqmem

theorem injectState_itemIdToIndex (st : WarmState) (uidx : ℕ)
    (pub : Option Vec) :
    (injectState st uidx pub).itemIdToIndex = st.itemIdToIndex := by
  cases pub <;> rfl

theorem recommendKnown_excludes (scoreFn : Vec → Vec → ℚ) (st' : WarmState)
    (uidx : ℕ) (seen : List ℕ) (page limit : ℕ)
    (hkeys : (st'.itemIdToIndex.map Prod.fst).Nodup) :
    ∀ id ∈ (recommendKnown scoreFn st' uidx seen page limit).1, id ∉ seen := by
  intro id hid hseen
  simp only [recommendKnown] at hid
  split at hid
  · exact absurd hid (List.not_mem_nil id)
  · obtain ⟨i, hi_top, hf⟩ := List.mem_filterMap.mp hid
    by_cases hmask : maskedOf (rawOf scoreFn st' uidx)
        (seenIndices st'.itemIdToIndex seen) i = ⊥
    · rw [if_pos hmask] at hf
      cases hf
    · rw [if_neg hmask] at hf
      have hmem : (id, i) ∈ st'.itemIdToIndex := indexToItemId_mem hf
      have hget : alGet id st'.itemIdToIndex = some i :=
        alGet_eq_of_mem_nodup hkeys hmem
      have hseenIdx : i ∈ seenIndices st'.itemIdToIndex seen := by
        unfold seenIndices
        exact List.mem_filterMap.mpr ⟨id, hseen, hget⟩
      refine hmask ?_
      unfold maskedOf
      rw [if_pos hseenIdx]

/-- C6: for every user, state, published embedding, page and limit, the
id list returned by `recommend` contains no item the user has previously
interacted with (of any action type): every seen item with a dense index
is masked to `⊥` before ranking and filtered from the returned page. -/
theorem c6_seen_item_exclusion (scoreFn : Vec → Vec → ℚ) (st : WarmState)
    (published : Option Vec) (seen : List ℕ) (userId page limit : ℕ)
    (hkeys : (st.itemIdToIndex.map Prod.fst).Nodup) :
    ∀ id ∈ (recommend scoreFn st published seen userId page limit).1.1,
      id ∉ seen := by
  intro id hid
  cases halGet : alGet userId st.userIdToIndex with
  | none =>
    simp only [recommend, halGet] at hid
    exact absurd hid (List.not_mem_nil id)
  | some uidx =>
    simp only [recommend, halGet] at hid
    refine recommendKnown_excludes scoreFn (injectState st uidx published)
      uidx seen page limit ?_ id hid
    rw [injectState_itemIdToIndex]
    exact hkeys

/-- C6 (witness): item 10 is in the user's interaction set and is not
returned, although it has the highest raw score. -/
theorem c6_seen_item_exclusion_witness :
    10 ∉ (recommend scoreOne stFlip none [10] 7 1 20).1.1 :=
  fun h =>
    c6_seen_item_exclusion scoreOne stFlip none [10] 7 1 20 (by decide) 10 h
      (by decide)

theorem recommendKnown_pagination (scoreFn : Vec → Vec → ℚ)
    (st' : WarmState) (uidx : ℕ) (seen : List ℕ) (page limit : ℕ) :
    (recommendKnown scoreFn st' uidx seen page limit).2
      = totalOf (maskedOf (rawOf scoreFn st' uidx)
          (seenIndices st'.itemIdToIndex seen)) st'.itemEmb.length ∧
    (totalOf (maskedOf (rawOf scoreFn st' uidx)
          (seenIndices st'.itemIdToIndex seen)) st'.itemEmb.length
        ≤ (page - 1) * limit →
      recommendKnown scoreFn st' uidx seen page limit
        = ([], totalOf (maskedOf (rawOf scoreFn st' uidx)
            (seenIndices st'.itemIdToIndex seen)) st'.itemEmb.length)) ∧
    ((page - 1) * limit < totalOf (maskedOf (rawOf scoreFn st' uidx)
          (seenIndices st'.itemIdToIndex seen)) st'.itemEmb.length →
      (recommendKnown scoreFn st' uidx seen page limit).1
        = (((eligibleRanked (maskedOf (rawOf scoreFn st' uidx)
              (seenIndices st'.itemIdToIndex seen)) st'.itemEmb.length).drop
            ((page - 1) * limit)).take limit).filterMap
            (indexToItemId st'.itemIdToIndex)) := by
  set masked := maskedOf (rawOf scoreFn st' uidx)
    (seenIndices st'.itemIdToIndex seen) with hmasked
  set n := st'.itemEmb.length with hn
  set total := totalOf masked n with htotal
  set offset := (page - 1) * limit with hoffset
  refine ⟨?_, ?_, ?_⟩
  · simp only [recommendKnown, ← hmasked, ← hn, ← htotal, ← hoffset]
    by_cases hbr : total ≤ offset
    · rw [if_pos hbr]
    · rw [if_neg hbr]
  · intro h
    simp only [recommendKnown, ← hmasked, ← hn, ← htotal, ← hoffset]
    rw [if_pos h]
  · intro h
    simp only [recommendKnown, ← hmasked, ← hn, ← htotal, ← hoffset]
    rw [if_neg (not_le.mpr h)]
    simp only
    rw [filterMap_mask]
    congr 1
    rw [rankedDesc_split masked n]
    refine slice_filter _ _ _ offset limit ?_ ?_ ?_
    · intro x hx
      exact (List.mem_filter.mp hx).2
    · intro x hx
      have := (List.mem_filter.mp hx).2
      revert this
      cases hd : decide (masked x ≠ ⊥) <;> simp
    · rw [length_eligibleRanked]
      exact le_of_lt h

/-- C7: the returned total is the count of item indices whose masked score
is not `⊥`; with `offset = (page−1)·limit`, when `offset ≥ total` the
result is `([], total)`, and otherwise the returned ids are the slice
`[offset, offset+limit)` of the eligible ranking translated to stable
item ids. -/
theorem c7_pagination (scoreFn : Vec → Vec → ℚ) (st : WarmState)
    (published : Option Vec) (seen : List ℕ) (userId page limit uidx : ℕ)
    (huser : alGet userId st.userIdToIndex = some uidx) :
    (recommend scoreFn st published seen userId page limit).1.2
      = totalOf (maskedOf (rawOf scoreFn (injectState st uidx published) uidx)
          (seenIndices (injectState st uidx published).itemIdToIndex seen))
          (injectState st uidx published).itemEmb.length ∧
    (totalOf (maskedOf (rawOf scoreFn (injectState st uidx published) uidx)
          (seenIndices (injectState st uidx published).itemIdToIndex seen))
          (injectState st uidx published).itemEmb.length ≤ (page - 1) * limit →
      (recommend scoreFn st published seen userId page limit).1
        = ([], totalOf (maskedOf
            (rawOf scoreFn (injectState st uidx published) uidx)
            (seenIndices (injectState st uidx published).itemIdToIndex seen))
            (injectState st uidx published).itemEmb.length)) ∧
    ((page - 1) * limit < totalOf (maskedOf
          (rawOf scoreFn (injectState st uidx published) uidx)
          (seenIndices (injectState st uidx published).itemIdToIndex seen))
          (injectState st uidx published).itemEmb.length →
      (recommend scoreFn st published seen userId page limit).1.1
        = (((eligibleRanked (maskedOf
              (rawOf scoreFn (injectState st uidx published) uidx)
              (seenIndices (injectState st uidx published).itemIdToIndex seen))
              (injectState st uidx published).itemEmb.length).drop
            ((page - 1) * limit)).take limit).filterMap
            (indexToItemId (injectState st uidx published).itemIdToIndex)) := by
  have hr : (recommend scoreFn st published seen userId page limit).1
      = recommendKnown scoreFn (injectState st uidx published) uidx seen
          page limit := by
    simp only [recommend, huser]
  rw [hr]
  exact recommendKnown_pagination scoreFn (injectState st uidx published)
    uidx seen page limit

/-- C7 (witness): the boundary case at a concrete instance — user 7, two
eligible items, page 3 of size 2 (`offset = 4 ≥ total = 2`) returns the
empty page with the eligible total. -/
theorem c7_pagination_witness :
    (recommend scoreFlip stFlip none [] 7 3 2).1
      = ([], totalOf (maskedOf (rawOf scoreFlip (injectState stFlip 0 none) 0)
          (seenIndices (injectState stFlip 0 none).itemIdToIndex []))
          (injectState stFlip 0 none).itemEmb.length) :=
  (c7_pagination scoreFlip stFlip none [] 7 3 2 0 (by decide)).2.1 (by decide)

theorem recommendKnown_sane (scoreFn : Vec → Vec → ℚ) (st' : WarmState)
    (uidx : ℕ) (seen : List ℕ) (page limit : ℕ)
    (hkeys : (st'.itemIdToIndex.map Prod.fst).Nodup) :
    (recommendKnown scoreFn st' uidx seen page limit).1.length ≤ limit ∧
    (recommendKnown scoreFn st' uidx seen page limit).1.Nodup ∧
    ∀ id ∈ (recommendKnown scoreFn st' uidx seen page limit).1,
      id ∈ st'.itemIdToIndex.map Prod.fst := by
  set masked := maskedOf (rawOf scoreFn st' uidx)
    (seenIndices st'.itemIdToIndex seen) with hmasked
  set n := st'.itemEmb.length with hn
  simp only [recommendKnown, ← hmasked, ← hn]
  split
  · refine ⟨Nat.zero_le _, List.Pairwise.nil, ?_⟩
    intro id hid
    exact absurd hid (List.not_mem_nil id)
  · have hsub : ((((rankedDesc masked n).drop ((page - 1) * limit)).take
        limit)).Sublist (rankedDesc masked n) :=
      (List.take_sublist _ _).trans (List.drop_sublist _ _)
    have hnodup : (rankedDesc masked n).Nodup :=
      ((rankedDesc_spec masked n).1.nodup_iff).mpr (List.nodup_range n)
    have hinj : ∀ a b c,
        c ∈ (if masked a = ⊥ then none else indexToItemId st'.itemIdToIndex a) →
        c ∈ (if masked b = ⊥ then none else indexToItemId st'.itemIdToIndex b) →
        a = b := by
      intro a b c hca hcb
      by_cases hma : masked a = ⊥
      · rw [if_pos hma] at hca
        cases hca
      · by_cases hmb : masked b = ⊥
        · rw [if_pos hmb] at hcb
          cases hcb
        · rw [if_neg hma] at hca
          rw [if_neg hmb] at hcb
          have ha : (c, a) ∈ st'.itemIdToIndex := indexToItemId_mem hca
          have hb : (c, b) ∈ st'.itemIdToIndex := indexToItemId_mem hcb
          have h1 := alGet_eq_of_mem_nodup hkeys ha
          have h2 := alGet_eq_of_mem_nodup hkeys hb
          rw [h1] at h2
          injection h2
    refine ⟨?_, ?_, ?_⟩
    · exact le_trans (List.length_filterMap_le _ _) (List.length_take_le _ _)
    · exact (hnodup.sublist hsub).filterMap hinj
    · intro id hid
      obtain ⟨i, hi_top, hf⟩ := List.mem_filterMap.mp hid
      by_cases hmi : masked i = ⊥
      · rw [if_pos hmi] at hf
        cases hf
      · rw [if_neg hmi] at hf
        exact List.mem_map_of_mem Prod.fst (indexToItemId_mem hf)

/-- C10: every `recommend` response has at most `limit` ids, the ids are
pairwise distinct, and each returned id is a stable item id present in
the loaded item identity mapping. -/
theorem c10_output_sane (scoreFn : Vec → Vec → ℚ) (st : WarmState)
    (published : Option Vec) (seen : List ℕ) (userId page limit : ℕ)
    (hkeys : (st.itemIdToIndex.map Prod.fst).Nodup) :
    (recommend scoreFn st published seen userId page limit).1.1.length
        ≤ limit ∧
    (recommend scoreFn st published seen userId page limit).1.1.Nodup ∧
    ∀ id ∈ (recommend scoreFn st published seen userId page limit).1.1,
      id ∈ st.itemIdToIndex.map Prod.fst := by
  cases halGet : alGet userId st.userIdToIndex with
  | none =>
    simp only [recommend, halGet]
    refine ⟨Nat.zero_le _, List.Pairwise.nil, ?_⟩
    intro id hid
    exact absurd hid (List.not_mem_nil id)
  | some uidx =>
    have hkeys' : ((injectState st uidx published).itemIdToIndex.map
        Prod.fst).Nodup := by
      rw [injectState_itemIdToIndex]
      exact hkeys
    have h := recommendKnown_sane scoreFn (injectState st uidx published)
      uidx seen page limit hkeys'
    rw [injectState_itemIdToIndex] at h
    simp only [recommend, halGet]
    exact h

/-- C10 (witness): the sanity theorem applied at the concrete two-item
instance with limit 1. -/
theorem c10_output_sane_witness :
    (recommend scoreFlip stFlip none [] 7 1 1).1.1.length ≤ 1 :=
  (c10_output_sane scoreFlip stFlip none [] 7 1 1 (by decide)).1

theorem processInteractions_markKeys (u i : IdState)
    (l : List Interaction) :
    (processInteractions u i l).markKeys
      = l.map (fun r => (r.userId, r.coordiId)) := by
  induction l generalizing u i with
  | nil => rfl
  | cons r rest ih =>
    simp only [processInteractions, List.map_cons]
    rw [ih]

theorem processInteractions_trainData_length (u i : IdState)
    (l : List Interaction) :
    (processInteractions u i l).trainData.length = l.length := by
  induction l generalizing u i with
  | nil => rfl
  | cons r rest ih =>
    simp only [processInteractions, List.length_cons]
    rw [ih]

theorem makeBatches_small {α : Type} (data : List α) (bs : ℕ)
    (h1 : 1 ≤ data.length) (h2 : data.length < bs) :
    makeBatches data bs = [data] := by
  have hdiv : data.length / bs = 0 := Nat.div_eq_of_lt h2
  have hmin : min ((0 + 1) * bs) data.length = data.length := by
    rw [Nat.zero_add, Nat.one_mul]
    omega
  unfold makeBatches
  rw [hdiv]
  simp only [if_true]
  rw [show List.range 1 = [0] from rfl]
  rw [List.filterMap_cons, List.filterMap_nil]
  simp only [Nat.zero_mul, hmin]
  rw [if_pos (show 0 < data.length by omega)]
  simp only [List.drop_zero, Nat.sub_zero, List.take_length]

/-- C9: when there are zero unconsumed positive interactions, the training
pass is a no-op: the interaction rows (their `is_trained` flags), the
checkpoint slot, and both published-embedding stores are returned
unchanged — the pass returns before performing any write. -/
theorem c9_noop_on_empty (initModel : ℕ → ℕ → StateDict)
    (gradStep : StateDict → List (ℤ × ℤ) → StateDict)
    (shuffle : ℕ → List (ℤ × ℤ) → List (ℤ × ℤ))
    (epochs bs embDim : ℕ) (w : TrainWorld)
    (h : unconsumedPositives w.interactions = []) :
    trainPass initModel gradStep shuffle epochs bs embDim w = w := by
  simp [trainPass, h]

/-- C9 (witness): the no-op theorem at a concrete world holding only a
`skip` row and an already consumed `like` row. -/
theorem c9_noop_on_empty_witness :
    trainPass noModel noGrad noShuffle 5 64 512 wNoop = wNoop :=
  c9_noop_on_empty noModel noGrad noShuffle 5 64 512 wNoop (by decide)

/-- C8: with `1 ≤ N < batch_size` unconsumed positive interactions, every
epoch (over any shuffling of the `N` training pairs) runs exactly one
gradient step whose batch is the whole shuffled pair list — hence contains
all `N` pairs — and after the pass every one of the `N` interactions is
marked consumed. -/
theorem c8_at_least_one_batch (initModel : ℕ → ℕ → StateDict)
    (gradStep : StateDict → List (ℤ × ℤ) → StateDict)
    (shuffle : ℕ → List (ℤ × ℤ) → List (ℤ × ℤ))
    (epochs bs embDim : ℕ) (w : TrainWorld) (e : ℕ)
    (hperm : List.Perm (shuffle e (trainDataOf w)) (trainDataOf w))
    (hN : 1 ≤ (unconsumedPositives w.interactions).length)
    (hbs : (unconsumedPositives w.interactions).length < bs) :
    makeBatches (shuffle e (trainDataOf w)) bs
      = [shuffle e (trainDataOf w)] ∧
    (makeBatches (shuffle e (trainDataOf w)) bs).length = 1 ∧
    (∀ p ∈ trainDataOf w, p ∈ shuffle e (trainDataOf w)) ∧
    (∀ r ∈ unconsumedPositives w.interactions,
      { r with isTrained := true }
        ∈ (trainPass initModel gradStep shuffle epochs bs embDim w).interactions) := by
  have hlen : (shuffle e (trainDataOf w)).length
      = (unconsumedPositives w.interactions).length := by
    rw [hperm.length_eq]
    exact processInteractions_trainData_length _ _ _
  have hbatch : makeBatches (shuffle e (trainDataOf w)) bs
      = [shuffle e (trainDataOf w)] :=
    makeBatches_small _ bs (by omega) (by omega)
  have hnews : unconsumedPositives w.interactions ≠ [] := by
    intro hc
    rw [hc] at hN
    exact absurd hN (by decide)
  refine ⟨hbatch, by simp [hbatch], fun p hp => hperm.mem_iff.mpr hp, ?_⟩
  intro r hr
  have hmarkKeys : (processInteractions (initialUserState w)
      (initialItemState w) (unconsumedPositives w.interactions)).markKeys
      = (unconsumedPositives w.interactions).map
          (fun r => (r.userId, r.coordiId)) :=
    processInteractions_markKeys _ _ _
  have hkeysne : (processInteractions (initialUserState w)
      (initialItemState w) (unconsumedPositives w.interactions)).markKeys
      ≠ [] := by
    rw [hmarkKeys]
    simp only [ne_eq, List.map_eq_nil_iff]
    exact hnews
  have hcommitted := runTrace_markTrace _ hkeysne
  simp only [trainPass, if_neg hnews, hcommitted]
  have hkey : (r.userId, r.coordiId)
      ∈ (processInteractions (initialUserState w) (initialItemState w)
          (unconsumedPositives w.interactions)).markKeys := by
    rw [hmarkKeys]
    exact List.mem_map_of_mem _ hr
  have hrint : r ∈ w.interactions := List.mem_of_mem_filter hr
  unfold applyMark
  have heq : (fun r : Interaction =>
      if (r.userId, r.coordiId) ∈ (processInteractions (initialUserState w)
          (initialItemState w) (unconsumedPositives w.interactions)).markKeys
      then { r with isTrained := true } else r) r
      = { r with isTrained := true } := by
    simp only
    rw [if_pos hkey]
  rw [← heq]
  exact List.mem_map_of_mem _ hrint

/-- C8 (witness): one `like` row with batch size 64 gives a single batch
holding the whole pair list. -/
theorem c8_at_least_one_batch_witness :
    makeBatches (noShuffle 0 (trainDataOf wOne)) 64
      = [noShuffle 0 (trainDataOf wOne)] :=
  (c8_at_least_one_batch noModel noGrad noShuffle 5 64 512 wOne 0
    (List.Perm.refl _) (by decide) (by decide)).1

end BE
